import Mathlib

/-
Verification of the ringmaster video receiver (src/app/video_receiver_reverse.cc)
against its natural-language specification.

The repository slice contains only the receive-loop translation unit; the
wire codec (protocol.hh), the reassembly engine (decoder.hh) and the strict
string-to-integer conversion (conversion.hh) are declared there but their
implementations are not part of the slice.  Those parts are modelled from the
specification, as marked on each definition.  Everything that is visible in
video_receiver_reverse.cc (the handshake loop, the steady-state receive loop,
option handling, the construction of the Decoder) is translated directly from
that source file.
-/

namespace Ringmaster

/-- Modelled from the spec (repository file protocol.hh is not in the slice):
session configuration, negotiated once per session.  Field widths are an
implementation choice per the spec; each field is modelled as a natural. -/
structure ConfigMsg where
  width : Nat
  height : Nat
  frame_rate : Nat
  target_bitrate : Nat
deriving DecidableEq, Repr

/-- Modelled from the spec (repository file protocol.hh is not in the slice):
one datagram's payload unit.  `frag_id` is the zero-based fragment index,
`frag_cnt` the total fragment count of the frame, `payload` the opaque
encoded-video bytes (modelled as a list of naturals). -/
structure Fragment where
  frame_id : Nat
  frag_id : Nat
  frag_cnt : Nat
  payload : List Nat
deriving DecidableEq, Repr

/-- Modelled from the spec (repository file protocol.hh is not in the slice):
feedback record echoing the identifying fields of a just-parsed fragment.
The receipt timestamp is wall-clock data and is not modelled. -/
structure AckMsg where
  frame_id : Nat
  frag_id : Nat
deriving DecidableEq, Repr

/-- Modelled from the spec: a `Message` is a closed tagged variant over
SessionConfig, Fragment and Acknowledgment (spec section 4.1). -/
inductive Msg where
  | config (c : ConfigMsg)
  | frag (f : Fragment)
  | ack (a : AckMsg)
deriving DecidableEq, Repr

/-- Modelled from the spec (Msg::parse_from_string of protocol.hh is not in
the slice): `decode(bytes) -> Message | ParseError`.  A leading discriminant
word selects the kind; a truncated payload, an unknown discriminant, a
`fragment_index >= fragment_count`, or a zero dimension/rate/bitrate yields a
parse error (`none`).  Field widths are an implementation choice per the
spec, so each field occupies one word of the modelled byte sequence. -/
def decodeMsg : List Nat → Option Msg
  | 0 :: w :: h :: fr :: br :: [] =>
      if 0 < w ∧ 0 < h ∧ 0 < fr ∧ 0 < br then
        some (Msg.config ⟨w, h, fr, br⟩)
      else none
  | 1 :: fid :: idx :: cnt :: payload =>
      if idx < cnt then some (Msg.frag ⟨fid, idx, cnt, payload⟩) else none
  | 2 :: fid :: idx :: [] => some (Msg.ack ⟨fid, idx⟩)
  | _ => none

/-- Modelled from the spec (Datagram::parse_from_string of protocol.hh is not
in the slice): parsing raw bytes as a fragment datagram succeeds exactly when
the codec decodes them to a Fragment message. -/
def parseDatagram (raw : List Nat) : Option Fragment :=
  match decodeMsg raw with
  | some (Msg.frag f) => some f
  | _ => none

/-- True iff the codec decodes the bytes to a SessionConfig message. -/
def isConfig : Option Msg → Bool
  | some (Msg.config _) => true
  | _ => false

/-- A frame handed to the decode pipeline: its id and the assembled bytes. -/
structure CompletionEvent where
  frame_id : Nat
  assembled_bytes : List Nat
deriving DecidableEq, Repr

/-- Modelled from the spec (decoder.hh is not in the slice): reassembly state
for exactly one frame_id — the frame's fragment count and the mapping from
fragment_index to payload bytes (association list, keys unique). -/
structure PartialFrame where
  frag_cnt : Nat
  frags : List (Nat × List Nat)
deriving DecidableEq, Repr

/-- Lookup in an association list with natural-number keys. -/
def alookup {α : Type} (k : Nat) : List (Nat × α) → Option α
  | [] => none
  | q :: rest => if q.1 = k then some q.2 else alookup k rest

/-- Insert-or-replace in an association list with natural-number keys. -/
def aupdate {α : Type} (k : Nat) (v : α) (l : List (Nat × α)) : List (Nat × α) :=
  (k, v) :: l.filter fun q => decide (q.1 ≠ k)

/-- Concatenation of a list of byte lists. -/
def joinAll : List (List Nat) → List Nat
  | [] => []
  | x :: xs => x ++ joinAll xs

/-- Modelled from the spec (decoder.hh is not in the slice): the assembled
bytes of a complete frame — payloads concatenated in fragment_index order,
not arrival order. -/
def assemble (pf : PartialFrame) : List Nat :=
  joinAll ((List.range pf.frag_cnt).map fun i => (alookup i pf.frags).getD [])

/-- Modelled from the spec (decoder.hh is not in the slice): per-session state
of the frame reassembly engine.  `expected_frame_id` starts at the id of the
first fragment observed (`started` records whether one has been observed) and
`partials` tracks the in-flight partial frames. -/
structure ReassemblyState where
  expected_frame_id : Nat
  started : Bool
  partials : List (Nat × PartialFrame)
deriving DecidableEq, Repr

/-- The reassembly state at session start: nothing observed, nothing tracked. -/
def ReassemblyState.init : ReassemblyState := ⟨0, false, []⟩

/-- Modelled from the spec: on the first fragment observed,
`expected_frame_id` is initialised to that fragment's frame id. -/
def startState (s : ReassemblyState) (f : Fragment) : ReassemblyState :=
  if s.started then s
  else { expected_frame_id := f.frame_id, started := true, partials := s.partials }

/-- Modelled from the spec (decoder.hh is not in the slice): final step of an
ingest that modified a partial frame.  If the frame is now complete, emit the
completion event, remove the partial, advance `expected_frame_id` to
`fid + 1` and abandon every tracked partial with a smaller id; otherwise
store the updated partial and emit nothing. -/
def finishIngest (s : ReassemblyState) (fid : Nat) (pf : PartialFrame) :
    ReassemblyState × Option CompletionEvent :=
  if pf.frags.length = pf.frag_cnt then
    ({ s with expected_frame_id := fid + 1,
              partials := s.partials.filter fun q => decide (fid + 1 ≤ q.1) },
     some ⟨fid, assemble pf⟩)
  else
    ({ s with partials := aupdate fid pf s.partials }, none)

/-- Core of the ingest operation, run on a state whose `expected_frame_id`
has already been initialised: discard stale fragments, locate or create the
partial frame, drop a fragment whose fragment count contradicts the tracked
one, ignore duplicate fragment indices, otherwise insert the payload and
check for completion. -/
def ingestCore (s : ReassemblyState) (f : Fragment) :
    ReassemblyState × Option CompletionEvent :=
  if f.frame_id < s.expected_frame_id then (s, none)
  else
    match alookup f.frame_id s.partials with
    | none => finishIngest s f.frame_id ⟨f.frag_cnt, [(f.frag_id, f.payload)]⟩
    | some pf =>
      if pf.frag_cnt = f.frag_cnt then
        match alookup f.frag_id pf.frags with
        | some _ => (s, none)
        | none => finishIngest s f.frame_id ⟨pf.frag_cnt, (f.frag_id, f.payload) :: pf.frags⟩
      else (s, none)

/-- Modelled from the spec (Decoder::add_datagram and the completion check of
decoder.hh are not in the slice): `ingest_fragment(Fragment) ->
CompletionEvent?` of spec section 4.2.  Under these spec semantics a frame
completes, and is emitted, at the very ingest of its last fragment, so a
tracked partial is never complete and the post-ingest drain loop of the
receive loop finds at most this one event per datagram. -/
def ingest_fragment (s : ReassemblyState) (f : Fragment) :
    ReassemblyState × Option CompletionEvent :=
  ingestCore (startState s f) f

/-- Ingest a whole list of fragments in order, collecting the emitted
completion events in emission order. -/
def runIngest (s : ReassemblyState) : List Fragment → ReassemblyState × List CompletionEvent
  | [] => (s, [])
  | f :: rest =>
    ((runIngest (ingest_fragment s f).1 rest).1,
     (ingest_fragment s f).2.toList ++ (runIngest (ingest_fragment s f).1 rest).2)

/-- Outcome of the steady-state receive loop (video_receiver_reverse.cc lines
120-144) over a finite sequence of received datagrams: the acknowledgments
sent, the completion events consumed by the decoder, the final reassembly
state, and whether the loop terminated by throwing on a parse failure
(`throw runtime_error("failed to parse a datagram")`, line 124). -/
structure LoopResult where
  acks : List AckMsg
  events : List CompletionEvent
  final : ReassemblyState
  terminated : Bool
deriving DecidableEq, Repr

/-- The steady-state receive loop of main (lines 120-144), one iteration per
received datagram: parse the datagram (throwing, i.e. terminating the
session, if parsing fails), send an AckMsg echoing the datagram's frame_id
and frag_id, ingest the datagram into the reassembly engine, then drain the
now-complete frames to the decoder. -/
def steadyLoop (s : ReassemblyState) : List (List Nat) → LoopResult
  | [] => ⟨[], [], s, false⟩
  | raw :: rest =>
    match parseDatagram raw with
    | none => ⟨[], [], s, true⟩
    | some f =>
      ⟨⟨f.frame_id, f.frag_id⟩ :: (steadyLoop (ingest_fragment s f).1 rest).acks,
       (ingest_fragment s f).2.toList ++ (steadyLoop (ingest_fragment s f).1 rest).events,
       (steadyLoop (ingest_fragment s f).1 rest).final,
       (steadyLoop (ingest_fragment s f).1 rest).terminated⟩

/-- The fragments of the maximal prefix of the datagram sequence that the
codec validates; the steady-state loop never gets past the first datagram
that fails to parse. -/
def parsedFrags : List (List Nat) → List Fragment
  | [] => []
  | raw :: rest =>
    match parseDatagram raw with
    | none => []
    | some f => f :: parsedFrags rest

/-- One observable action of a steady-state loop iteration, in program
order: sending an acknowledgment, handing a fragment to the reassembly
engine, delivering a completed frame to the decoder. -/
inductive Action where
  | sentAck (a : AckMsg)
  | ingested (f : Fragment)
  | delivered (e : CompletionEvent)
deriving DecidableEq, Repr

/-- The chronological action trace of the steady-state receive loop: per
validated datagram, main sends the AckMsg (line 129) before handing the
datagram to the reassembly engine (line 137), then drains completions
(lines 140-143). -/
def loopTrace (s : ReassemblyState) : List (List Nat) → List Action
  | [] => []
  | raw :: rest =>
    match parseDatagram raw with
    | none => []
    | some f =>
      Action.sentAck ⟨f.frame_id, f.frag_id⟩ :: Action.ingested f ::
        ((ingest_fragment s f).2.toList.map Action.delivered ++
          loopTrace (ingest_fragment s f).1 rest)

/-- Traces in which every fragment handed to the reassembly engine was
acknowledged immediately beforehand, with an acknowledgment echoing that
fragment's frame_id and frag_id, followed only by frame deliveries before
the next datagram's acknowledgment. -/
inductive AckBeforeIngest : List Action → Prop
  | nil : AckBeforeIngest []
  | step (f : Fragment) (devs : List CompletionEvent) (rest : List Action) :
      AckBeforeIngest rest →
      AckBeforeIngest (Action.sentAck ⟨f.frame_id, f.frag_id⟩ :: Action.ingested f ::
        (devs.map Action.delivered ++ rest))

/-- The handshake loop recv_config_msg (lines 31-47), modelled over a finite
stream of (sender address, raw bytes) datagrams: skip every datagram that is
invalid or not a SessionConfig message, and return the sender address and
config of the first valid SessionConfig together with the rest of the
stream.  Addresses are modelled as naturals. -/
def recv_config_msg : List (Nat × List Nat) → Option (Nat × ConfigMsg × List (Nat × List Nat))
  | [] => none
  | (a, raw) :: rest =>
    match decodeMsg raw with
    | some (Msg.config c) => some (a, c, rest)
    | _ => recv_config_msg rest

/-- Observable outcome of a whole receiver session over a finite datagram
stream: the peer address the socket is connected to after the handshake (none
while still blocked waiting for a SessionConfig), the received config, and
the steady-state loop result. -/
structure SessionResult where
  peer : Option Nat
  config : Option ConfigMsg
  loop : LoopResult
deriving DecidableEq, Repr

/-- The session lifecycle of main (lines 100-144): block in recv_config_msg
until the first valid SessionConfig, connect to its sender, then run the
steady-state loop over the remaining datagrams. -/
def runSession (inputs : List (Nat × List Nat)) : SessionResult :=
  match recv_config_msg inputs with
  | none => ⟨none, none, ⟨[], [], ReassemblyState.init, false⟩⟩
  | some (a, c, rest) =>
    ⟨some a, some c, steadyLoop ReassemblyState.init (rest.map Prod.snd)⟩

/-- Accumulate the value of a decimal digit string, failing on a non-digit. -/
def digitsAcc : Nat → List Char → Option Nat
  | acc, [] => some acc
  | acc, c :: cs => if c.isDigit then digitsAcc (acc * 10 + (c.toNat - 48)) cs else none

/-- Modelled from the spec (strict_stoi of conversion.hh is not in the
slice): strict string-to-integer conversion — an optional minus sign followed
by decimal digits, with the whole string consumed; anything else fails
(which main lets propagate as an exception). -/
def strict_stoi (s : String) : Option Int :=
  match s.data with
  | [] => none
  | '-' :: [] => none
  | '-' :: c :: cs => (digitsAcc 0 (c :: cs)).map fun n => -(n : Int)
  | cs => (digitsAcc 0 cs).map fun n => (n : Int)

/-- The mutable option state of main's argument parsing (lines 52-54). -/
structure CmdOpts where
  lazy_level : Int
  output_path : String
  verbose : Bool
deriving DecidableEq, Repr

/-- Defaults of main: lazy_level 0, empty output path, verbose off. -/
def defaultOpts : CmdOpts := ⟨0, "", false⟩

/-- One option token as produced by getopt_long for main's option table. -/
inductive OptTok where
  | lazy (arg : String)
  | output (arg : String)
  | verbose
  | unknown
deriving DecidableEq, Repr

/-- The option-processing switch of main (lines 63-83): `--lazy` stores
strict_stoi of its argument with no range check (a strict_stoi failure
throws, modelled as `none`), `--output` stores the path, `--verbose` sets the
flag, and an unrecognised option prints usage and exits with failure. -/
def parseOpts (acc : CmdOpts) : List OptTok → Option CmdOpts
  | [] => some acc
  | OptTok.lazy a :: rest =>
    match strict_stoi a with
    | none => none
    | some n => parseOpts { acc with lazy_level := n } rest
  | OptTok.output a :: rest => parseOpts { acc with output_path := a } rest
  | OptTok.verbose :: rest => parseOpts { acc with verbose := true } rest
  | OptTok.unknown :: _ => none

/-- The arguments main passes to the Decoder constructor (line 116). -/
structure DecoderArgs where
  width : Nat
  height : Nat
  lazy_level : Int
  output_path : String
deriving DecidableEq, Repr

/-- Construction of the Decoder in main (line 116): the config's dimensions
and the command line's lazy_level and output path, passed through unchecked. -/
def decoderArgsOf (c : ConfigMsg) (o : CmdOpts) : DecoderArgs :=
  ⟨c.width, c.height, o.lazy_level, o.output_path⟩

/-- The canonical fragment of frame `N` with `c` fragments and payload
function `p`, at index `i`. -/
def mkFrag (N c : Nat) (p : Nat → List Nat) (i : Nat) : Fragment :=
  ⟨N, i, c, p i⟩

/-- The full fragment list of frame `N` (fragment count `c`, payloads `p`)
in fragment_index order. -/
def canonicalFrags (N c : Nat) (p : Nat → List Nat) : List Fragment :=
  (List.range c).map (mkFrag N c p)

/-- The association pairs of a fragment list in reverse arrival order, as
accumulated by consing each arriving fragment onto the partial frame. -/
def revPairs (l : List Fragment) : List (Nat × List Nat) :=
  (l.map fun f => (f.frag_id, f.payload)).reverse

/-- Invariant of every reachable reassembly state: until the first fragment
has been observed, `expected_frame_id` is still at its initial zero. -/
def WellStarted (s : ReassemblyState) : Prop :=
  s.started = false → s.expected_frame_id = 0

/- ------------------------------------------------------------------ -/
/- Helper lemmas about the reassembly engine.                          -/
/- ------------------------------------------------------------------ -/

theorem alookup_nil {α : Type} (k : Nat) : alookup k ([] : List (Nat × α)) = none := rfl

theorem alookup_eq_none {α : Type} (k : Nat) (l : List (Nat × α))
    (h : k ∉ l.map Prod.fst) : alookup k l = none := by
  induction l with
  | nil => rfl
  | cons q rest ih =>
    simp only [List.map_cons, List.mem_cons, not_or] at h
    rw [alookup, if_neg fun hq => h.1 hq.symm]
    exact ih h.2

theorem alookup_mem {α : Type} (k : Nat) (v : α) (l : List (Nat × α))
    (hnd : (l.map Prod.fst).Nodup) (hm : (k, v) ∈ l) : alookup k l = some v := by
  induction l with
  | nil => cases hm
  | cons q rest ih =>
    simp only [List.map_cons, List.nodup_cons] at hnd
    rcases List.mem_cons.mp hm with heq | hmem
    · rw [← heq, alookup, if_pos rfl]
    · have hne : q.1 ≠ k := by
        intro he
        exact hnd.1 (he ▸ List.mem_map_of_mem Prod.fst hmem)
      rw [alookup, if_neg hne]
      exact ih hnd.2 hmem

theorem alookup_filter_ge {α : Type} (k bound : Nat) (l : List (Nat × α)) (h : k < bound) :
    alookup k (l.filter fun q => decide (bound ≤ q.1)) = none := by
  apply alookup_eq_none
  intro hk
  obtain ⟨q, hq, hfst⟩ := List.mem_map.mp hk
  have hb := of_decide_eq_true (List.mem_filter.mp hq).2
  omega

theorem alookup_aupdate_self {α : Type} (k : Nat) (v : α) (l : List (Nat × α)) :
    alookup k (aupdate k v l) = some v := by
  rw [aupdate, alookup, if_pos rfl]

theorem startState_started (s : ReassemblyState) (f : Fragment) :
    (startState s f).started = true := by
  rw [startState]
  split
  · next h => exact h
  · rfl

theorem startState_partials (s : ReassemblyState) (f : Fragment) :
    (startState s f).partials = s.partials := by
  rw [startState]; split <;> rfl

theorem startState_of_started {s : ReassemblyState} (f : Fragment) (h : s.started = true) :
    startState s f = s := by
  rw [startState, if_pos h]

theorem startState_expected_ge {s : ReassemblyState} (f : Fragment) (hg : WellStarted s) :
    s.expected_frame_id ≤ (startState s f).expected_frame_id := by
  rw [startState]
  split
  · exact le_refl _
  · next h =>
    rw [hg (Bool.not_eq_true s.started ▸ h)]
    exact Nat.zero_le _

theorem finishIngest_started (s : ReassemblyState) (fid : Nat) (pf : PartialFrame) :
    ((finishIngest s fid pf).1).started = s.started := by
  rw [finishIngest]; split <;> rfl

theorem finishIngest_expected_ge (s : ReassemblyState) (fid : Nat) (pf : PartialFrame)
    (h : s.expected_frame_id ≤ fid + 1) :
    s.expected_frame_id ≤ (finishIngest s fid pf).1.expected_frame_id := by
  rw [finishIngest]; split
  · exact h
  · exact le_refl _

theorem finishIngest_emit (s : ReassemblyState) (fid : Nat) (pf : PartialFrame)
    (e : CompletionEvent) (h : (finishIngest s fid pf).2 = some e) :
    e = ⟨fid, assemble pf⟩ ∧ pf.frags.length = pf.frag_cnt ∧
    (finishIngest s fid pf).1 =
      { s with expected_frame_id := fid + 1,
               partials := s.partials.filter fun q => decide (fid + 1 ≤ q.1) } := by
  by_cases hc : pf.frags.length = pf.frag_cnt
  · rw [finishIngest, if_pos hc] at h ⊢
    exact ⟨(Option.some.injEq _ _ ▸ h).symm, hc, rfl⟩
  · rw [finishIngest, if_neg hc] at h
    cases h

theorem ingest_shape (s : ReassemblyState) (f : Fragment) :
    ingest_fragment s f = (startState s f, none) ∨
    (¬ f.frame_id < (startState s f).expected_frame_id ∧
     ∃ pf : PartialFrame,
       ingest_fragment s f = finishIngest (startState s f) f.frame_id pf) := by
  rw [ingest_fragment, ingestCore]
  split
  · left; rfl
  · next hst =>
    split
    · right; exact ⟨hst, _, rfl⟩
    · split
      · split
        · left; rfl
        · right; exact ⟨hst, _, rfl⟩
      · left; rfl

theorem ingest_started (s : ReassemblyState) (f : Fragment) :
    (ingest_fragment s f).1.started = true := by
  rcases ingest_shape s f with h | ⟨-, pf, h⟩
  · rw [h]; exact startState_started s f
  · rw [h, finishIngest_started]; exact startState_started s f

theorem ingest_wellStarted (s : ReassemblyState) (f : Fragment) :
    WellStarted (ingest_fragment s f).1 := by
  intro h
  rw [ingest_started] at h
  cases h

theorem ingest_expected_ge (s : ReassemblyState) (f : Fragment) (hg : WellStarted s) :
    s.expected_frame_id ≤ (ingest_fragment s f).1.expected_frame_id := by
  rcases ingest_shape s f with h | ⟨hst, pf, h⟩
  · rw [h]; exact startState_expected_ge f hg
  · rw [h]
    exact le_trans (startState_expected_ge f hg)
      (finishIngest_expected_ge _ _ _ (Nat.le_succ_of_le (Nat.le_of_not_lt hst)))

theorem ingest_emit (s : ReassemblyState) (f : Fragment) (e : CompletionEvent)
    (h : (ingest_fragment s f).2 = some e) :
    e.frame_id = f.frame_id ∧
    (startState s f).expected_frame_id ≤ e.frame_id ∧
    (ingest_fragment s f).1.expected_frame_id = e.frame_id + 1 ∧
    (ingest_fragment s f).1.partials =
      (startState s f).partials.filter (fun q => decide (e.frame_id + 1 ≤ q.1)) := by
  rcases ingest_shape s f with hs | ⟨hst, pf, hs⟩
  · rw [hs] at h; cases h
  · rw [hs] at h ⊢
    obtain ⟨he, hlen, h1⟩ := finishIngest_emit _ _ _ _ h
    subst he
    exact ⟨rfl, Nat.le_of_not_lt hst, by rw [h1], by rw [h1, startState_partials]⟩

theorem ingest_emit_expected_ge (s : ReassemblyState) (f : Fragment) (e : CompletionEvent)
    (hg : WellStarted s) (h : (ingest_fragment s f).2 = some e) :
    s.expected_frame_id ≤ e.frame_id :=
  le_trans (startState_expected_ge f hg) (ingest_emit s f e h).2.1

theorem ingest_stale {s : ReassemblyState} {f : Fragment} (hstart : s.started = true)
    (hlt : f.frame_id < s.expected_frame_id) : ingest_fragment s f = (s, none) := by
  rw [ingest_fragment, startState_of_started f hstart, ingestCore, if_pos hlt]

theorem ingest_new {s : ReassemblyState} {f : Fragment} (hstart : s.started = true)
    (hst : ¬ f.frame_id < s.expected_frame_id)
    (halk : alookup f.frame_id s.partials = none) :
    ingest_fragment s f = finishIngest s f.frame_id ⟨f.frag_cnt, [(f.frag_id, f.payload)]⟩ := by
  rw [ingest_fragment, startState_of_started f hstart]
  simp [ingestCore, hst, halk]

theorem ingest_dup {s : ReassemblyState} {f : Fragment} {q : PartialFrame} {v : List Nat}
    (hstart : s.started = true) (hst : ¬ f.frame_id < s.expected_frame_id)
    (halk : alookup f.frame_id s.partials = some q)
    (hcnt : q.frag_cnt = f.frag_cnt)
    (hdup : alookup f.frag_id q.frags = some v) :
    ingest_fragment s f = (s, none) := by
  rw [ingest_fragment, startState_of_started f hstart]
  simp [ingestCore, hst, halk, hcnt, hdup]

theorem ingest_mismatch {s : ReassemblyState} {f : Fragment} {q : PartialFrame}
    (hstart : s.started = true) (hst : ¬ f.frame_id < s.expected_frame_id)
    (halk : alookup f.frame_id s.partials = some q)
    (hcnt : q.frag_cnt ≠ f.frag_cnt) :
    ingest_fragment s f = (s, none) := by
  rw [ingest_fragment, startState_of_started f hstart]
  simp [ingestCore, hst, halk, hcnt]

theorem ingest_insert {s : ReassemblyState} {f : Fragment} {q : PartialFrame}
    (hstart : s.started = true) (hst : ¬ f.frame_id < s.expected_frame_id)
    (halk : alookup f.frame_id s.partials = some q)
    (hcnt : q.frag_cnt = f.frag_cnt)
    (hdup : alookup f.frag_id q.frags = none) :
    ingest_fragment s f =
      finishIngest s f.frame_id ⟨q.frag_cnt, (f.frag_id, f.payload) :: q.frags⟩ := by
  rw [ingest_fragment, startState_of_started f hstart]
  simp [ingestCore, hst, halk, hcnt, hdup]

theorem runIngest_cons (s : ReassemblyState) (f : Fragment) (rest : List Fragment) :
    runIngest s (f :: rest) =
      ((runIngest (ingest_fragment s f).1 rest).1,
       (ingest_fragment s f).2.toList ++ (runIngest (ingest_fragment s f).1 rest).2) := rfl

theorem runIngest_spec (l : List Fragment) : ∀ s : ReassemblyState, WellStarted s →
    s.expected_frame_id ≤ (runIngest s l).1.expected_frame_id ∧
    WellStarted (runIngest s l).1 ∧
    (∀ e ∈ (runIngest s l).2, s.expected_frame_id ≤ e.frame_id ∧
      e.frame_id < (runIngest s l).1.expected_frame_id) ∧
    List.Pairwise (fun a b => a < b) ((runIngest s l).2.map CompletionEvent.frame_id) := by
  induction l with
  | nil =>
    intro s hg
    exact ⟨le_refl _, hg, fun e he => absurd he (List.not_mem_nil e), List.Pairwise.nil⟩
  | cons f rest ih =>
    intro s hg
    obtain ⟨ih1, ih2, ih3, ih4⟩ := ih (ingest_fragment s f).1 (ingest_wellStarted s f)
    have hmono := ingest_expected_ge s f hg
    rw [runIngest_cons]
    cases hev : (ingest_fragment s f).2 with
    | none =>
      refine ⟨le_trans hmono ih1, ih2, ?_, ?_⟩
      · intro e he
        simp only [hev, Option.toList, List.nil_append] at he
        exact ⟨le_trans hmono (ih3 e he).1, (ih3 e he).2⟩
      · simpa [hev, Option.toList] using ih4
    | some e0 =>
      obtain ⟨hfid, hge0, hexp, hpart⟩ := ingest_emit s f e0 hev
      have hge : s.expected_frame_id ≤ e0.frame_id :=
        le_trans (startState_expected_ge f hg) hge0
      refine ⟨le_trans hmono ih1, ih2, ?_, ?_⟩
      · intro e he
        simp only [hev, Option.toList, List.cons_append, List.nil_append] at he
        rcases List.mem_cons.mp he with rfl | hmem
        · refine ⟨hge, ?_⟩
          have h1 : e.frame_id < (ingest_fragment s f).1.expected_frame_id := by omega
          exact lt_of_lt_of_le h1 ih1
        · exact ⟨le_trans hmono (ih3 e hmem).1, (ih3 e hmem).2⟩
      · simp only [hev, Option.toList, List.cons_append, List.nil_append, List.map_cons]
        rw [List.pairwise_cons]
        refine ⟨?_, ih4⟩
        intro b hb
        obtain ⟨e', he', rfl⟩ := List.mem_map.mp hb
        have h1 := (ih3 e' he').1
        omega

theorem wellStarted_init : WellStarted ReassemblyState.init := fun _ => rfl

theorem steadyLoop_cons_fail {raw : List Nat} {rest : List (List Nat)} {s : ReassemblyState}
    (h : parseDatagram raw = none) : steadyLoop s (raw :: rest) = ⟨[], [], s, true⟩ := by
  simp [steadyLoop, h]

theorem steadyLoop_runIngest (raws : List (List Nat)) : ∀ s : ReassemblyState,
    (steadyLoop s raws).acks =
      (parsedFrags raws).map (fun f => AckMsg.mk f.frame_id f.frag_id) ∧
    (steadyLoop s raws).events = (runIngest s (parsedFrags raws)).2 ∧
    (steadyLoop s raws).final = (runIngest s (parsedFrags raws)).1 := by
  induction raws with
  | nil => intro s; exact ⟨rfl, rfl, rfl⟩
  | cons raw rest ih =>
    intro s
    cases hp : parseDatagram raw with
    | none => simp [steadyLoop_cons_fail hp, parsedFrags, hp, runIngest]
    | some f =>
      obtain ⟨ih1, ih2, ih3⟩ := ih (ingest_fragment s f).1
      refine ⟨?_, ?_, ?_⟩ <;>
        simp [steadyLoop, parsedFrags, hp, runIngest_cons, ih1, ih2, ih3]

/-- Claim C7: ingesting the same Fragment twice (same frame_id and fragment_index)
yields exactly the same reassembly state — including the PartialFrame and its
received-count — as ingesting it once; the duplicate is ignored (it emits
nothing) without being treated as an error. -/
theorem idempotent_duplicate (s : ReassemblyState) (f : Fragment) :
    ingest_fragment (ingest_fragment s f).1 f = ((ingest_fragment s f).1, none) := by
  have hstart0 : (startState s f).started = true := startState_started s f
  by_cases hst : f.frame_id < (startState s f).expected_frame_id
  · have h1 : ingest_fragment s f = (startState s f, none) := by
      rw [ingest_fragment, ingestCore, if_pos hst]
    rw [h1]
    exact ingest_stale hstart0 hst
  · cases halk : alookup f.frame_id (startState s f).partials with
    | none =>
      have h1 : ingest_fragment s f =
          finishIngest (startState s f) f.frame_id ⟨f.frag_cnt, [(f.frag_id, f.payload)]⟩ := by
        rw [ingest_fragment, ingestCore, if_neg hst]
        simp [halk]
      by_cases hc : (PartialFrame.mk f.frag_cnt [(f.frag_id, f.payload)]).frags.length
          = (PartialFrame.mk f.frag_cnt [(f.frag_id, f.payload)]).frag_cnt
      · have h2 : (ingest_fragment s f).1 =
            ReassemblyState.mk (f.frame_id + 1) (startState s f).started
              ((startState s f).partials.filter fun q => decide (f.frame_id + 1 ≤ q.1)) := by
          rw [h1, finishIngest, if_pos hc]
        apply ingest_stale
        · rw [h2]; exact hstart0
        · rw [h2]; exact Nat.lt_succ_self _
      · have h2 : (ingest_fragment s f).1 =
            ReassemblyState.mk (startState s f).expected_frame_id (startState s f).started
              (aupdate f.frame_id ⟨f.frag_cnt, [(f.frag_id, f.payload)]⟩
                (startState s f).partials) := by
          rw [h1, finishIngest, if_neg hc]
        apply ingest_dup (q := ⟨f.frag_cnt, [(f.frag_id, f.payload)]⟩) (v := f.payload)
        · rw [h2]; exact hstart0
        · rw [h2]; exact hst
        · rw [h2]; exact alookup_aupdate_self _ _ _
        · rfl
        · simp [alookup]
    | some pf =>
      by_cases hcnt : pf.frag_cnt = f.frag_cnt
      · cases hdup : alookup f.frag_id pf.frags with
        | some v =>
          have h1 : ingest_fragment s f = (startState s f, none) := by
            rw [ingest_fragment, ingestCore, if_neg hst]
            simp [halk, hcnt, hdup]
          rw [h1]
          exact ingest_dup hstart0 hst halk hcnt hdup
        | none =>
          have h1 : ingest_fragment s f = finishIngest (startState s f) f.frame_id
              ⟨pf.frag_cnt, (f.frag_id, f.payload) :: pf.frags⟩ := by
            rw [ingest_fragment, ingestCore, if_neg hst]
            simp [halk, hcnt, hdup]
          by_cases hc : (PartialFrame.mk pf.frag_cnt ((f.frag_id, f.payload) :: pf.frags)).frags.length
              = (PartialFrame.mk pf.frag_cnt ((f.frag_id, f.payload) :: pf.frags)).frag_cnt
          · have h2 : (ingest_fragment s f).1 =
                ReassemblyState.mk (f.frame_id + 1) (startState s f).started
                  ((startState s f).partials.filter fun q => decide (f.frame_id + 1 ≤ q.1)) := by
              rw [h1, finishIngest, if_pos hc]
            apply ingest_stale
            · rw [h2]; exact hstart0
            · rw [h2]; exact Nat.lt_succ_self _
          · have h2 : (ingest_fragment s f).1 =
                ReassemblyState.mk (startState s f).expected_frame_id (startState s f).started
                  (aupdate f.frame_id ⟨pf.frag_cnt, (f.frag_id, f.payload) :: pf.frags⟩
                    (startState s f).partials) := by
              rw [h1, finishIngest, if_neg hc]
            apply ingest_dup (q := ⟨pf.frag_cnt, (f.frag_id, f.payload) :: pf.frags⟩)
              (v := f.payload)
            · rw [h2]; exact hstart0
            · rw [h2]; exact hst
            · rw [h2]; exact alookup_aupdate_self _ _ _
            · exact hcnt
            · simp [alookup]
      · have h1 : ingest_fragment s f = (startState s f, none) := by
          rw [ingest_fragment, ingestCore, if_neg hst]
          simp [halk, hcnt]
        rw [h1]
        exact ingest_mismatch hstart0 hst halk hcnt

theorem finishIngest_kick (N c : Nat) (pf : PartialFrame) :
    finishIngest (ReassemblyState.mk N true []) N pf =
      finishIngest (ReassemblyState.mk N true [(N, ⟨c, []⟩)]) N pf := by
  rw [finishIngest, finishIngest]
  split
  · simp [List.filter_cons, Nat.not_succ_le_self]
  · simp [aupdate, List.filter_cons]

theorem completion_run (N c : Nat) :
    ∀ (l : List Fragment) (acc : List (Nat × List Nat)),
      (∀ f ∈ l, f.frame_id = N ∧ f.frag_cnt = c) →
      ((l.map Fragment.frag_id) ++ acc.map Prod.fst).Nodup →
      acc.length + l.length = c →
      l ≠ [] →
      runIngest (ReassemblyState.mk N true [(N, ⟨c, acc⟩)]) l =
        (ReassemblyState.mk (N + 1) true [], [⟨N, assemble ⟨c, revPairs l ++ acc⟩⟩]) := by
  intro l
  induction l with
  | nil => intro acc _ _ _ hne; exact absurd rfl hne
  | cons f rest ih =>
    intro acc hprops hnd hlen _
    obtain ⟨hfid, hcnt⟩ := hprops f (List.mem_cons_self f rest)
    have hnd1 : (f.frag_id :: (rest.map Fragment.frag_id ++ acc.map Prod.fst)).Nodup := by
      simpa using hnd
    have hdupn : alookup f.frag_id acc = none := by
      apply alookup_eq_none
      intro hmem
      exact (List.nodup_cons.mp hnd1).1 (List.mem_append.mpr (Or.inr hmem))
    have hstep : ingest_fragment (ReassemblyState.mk N true [(N, ⟨c, acc⟩)]) f =
        finishIngest (ReassemblyState.mk N true [(N, ⟨c, acc⟩)]) f.frame_id
          ⟨c, (f.frag_id, f.payload) :: acc⟩ := by
      apply ingest_insert (q := ⟨c, acc⟩) rfl
      · rw [hfid]; exact lt_irrefl N
      · rw [hfid]; simp [alookup]
      · exact hcnt.symm
      · exact hdupn
    rcases eq_or_ne rest [] with hrest | hrest
    · subst hrest
      have hcomp : ((f.frag_id, f.payload) :: acc).length = c := by
        simpa using hlen
      rw [runIngest_cons, hstep, finishIngest, if_pos hcomp, hfid]
      simp [runIngest, revPairs, List.filter_cons, Nat.not_succ_le_self, Option.toList]
    · have hlt : ((f.frag_id, f.payload) :: acc).length ≠ c := by
        have hpos : 0 < rest.length := List.length_pos.mpr hrest
        simp only [List.length_cons] at hlen ⊢
        omega
      have hstep2 : ingest_fragment (ReassemblyState.mk N true [(N, ⟨c, acc⟩)]) f =
          (ReassemblyState.mk N true [(N, ⟨c, (f.frag_id, f.payload) :: acc⟩)], none) := by
        rw [hstep, finishIngest, if_neg hlt, hfid]
        simp [aupdate, List.filter_cons]
      have hih := ih ((f.frag_id, f.payload) :: acc)
        (fun g hg => hprops g (List.mem_cons_of_mem f hg))
        (by
          apply (List.perm_middle.nodup_iff).mpr
          simpa using hnd1)
        (by simp only [List.length_cons] at hlen ⊢; omega)
        hrest
      rw [runIngest_cons, hstep2, hih]
      simp [Option.toList, revPairs, List.append_assoc]

theorem assemble_of_pairs (c : Nat) (pairs : List (Nat × List Nat)) (p : Nat → List Nat)
    (hnd : (pairs.map Prod.fst).Nodup) (hm : ∀ i < c, (i, p i) ∈ pairs) :
    assemble ⟨c, pairs⟩ = joinAll ((List.range c).map p) := by
  rw [assemble]
  congr 1
  apply List.map_congr_left
  intro i hi
  rw [alookup_mem i (p i) pairs hnd (hm i (List.mem_range.mp hi))]
  rfl

/- ------------------------------------------------------------------ -/
/- Claim theorems.                                                     -/
/- ------------------------------------------------------------------ -/

/-- Claim C6: for every frame whose fragments (with consistent fragment_count) are
all ingested, and for any permutation of those fragments' arrival order,
exactly one CompletionEvent is emitted for that frame, and its
assembled_bytes is identical across permutations: the concatenation of the
payloads ordered by fragment_index, not by arrival order. -/
theorem order_independent_completion (N c : Nat) (p : Nat → List Nat) (l : List Fragment)
    (hc : 0 < c) (hperm : l.Perm (canonicalFrags N c p)) :
    (runIngest ReassemblyState.init l).2 = [⟨N, joinAll ((List.range c).map p)⟩] := by
  have hmem : ∀ f ∈ l, f = mkFrag N c p f.frag_id ∧ f.frag_id < c := by
    intro f hf
    have hf2 : f ∈ canonicalFrags N c p := hperm.mem_iff.mp hf
    obtain ⟨i, hi, rfl⟩ := List.mem_map.mp hf2
    exact ⟨rfl, List.mem_range.mp hi⟩
  have hkeys : (l.map Fragment.frag_id).Nodup := by
    have h1 : (canonicalFrags N c p).map Fragment.frag_id = List.range c := by
      rw [canonicalFrags, List.map_map]
      exact (List.map_congr_left fun i _ => rfl).trans (List.map_id _)
    apply ((hperm.map Fragment.frag_id).nodup_iff).mpr
    rw [h1]
    exact List.nodup_range c
  have hlen : l.length = c := by
    have h := hperm.length_eq
    simpa [canonicalFrags] using h
  have hpairs : ∀ i < c, (i, p i) ∈ revPairs l := by
    intro i hic
    rw [revPairs, List.mem_reverse]
    exact List.mem_map.mpr
      ⟨mkFrag N c p i, hperm.mem_iff.mpr (List.mem_map.mpr ⟨i, List.mem_range.mpr hic, rfl⟩), rfl⟩
  have hpnd : ((revPairs l).map Prod.fst).Nodup := by
    have h1 : (revPairs l).map Prod.fst = (l.map Fragment.frag_id).reverse := by
      simp [revPairs, List.map_reverse, List.map_map]
    rw [h1]
    exact List.nodup_reverse.mpr hkeys
  cases l with
  | nil =>
    rw [List.length_nil] at hlen
    omega
  | cons f rest =>
    obtain ⟨hfeq, hfi⟩ := hmem f (List.mem_cons_self f rest)
    have hfid : f.frame_id = N := by rw [hfeq]; rfl
    have hfcnt : f.frag_cnt = c := by rw [hfeq]; rfl
    have hL : ingest_fragment ReassemblyState.init f =
        finishIngest (ReassemblyState.mk f.frame_id true []) f.frame_id
          ⟨f.frag_cnt, [(f.frag_id, f.payload)]⟩ := by
      rw [ingest_fragment]
      have hss : startState ReassemblyState.init f =
          ReassemblyState.mk f.frame_id true [] := rfl
      rw [hss, ingestCore]
      simp [alookup]
    have hL2 : ingest_fragment ReassemblyState.init f =
        finishIngest (ReassemblyState.mk N true []) N ⟨c, [(f.frag_id, f.payload)]⟩ := by
      rw [hL, hfid, hfcnt]
    have hR : ingest_fragment (ReassemblyState.mk N true [(N, ⟨c, []⟩)]) f =
        finishIngest (ReassemblyState.mk N true [(N, ⟨c, []⟩)]) f.frame_id
          ⟨c, [(f.frag_id, f.payload)]⟩ := by
      apply ingest_insert (q := ⟨c, []⟩) rfl
      · rw [hfid]; exact lt_irrefl N
      · rw [hfid]; simp [alookup]
      · exact hfcnt.symm
      · rfl
    have hR2 : ingest_fragment (ReassemblyState.mk N true [(N, ⟨c, []⟩)]) f =
        finishIngest (ReassemblyState.mk N true [(N, ⟨c, []⟩)]) N
          ⟨c, [(f.frag_id, f.payload)]⟩ := by
      rw [hR, hfid]
    have hkick : ingest_fragment ReassemblyState.init f =
        ingest_fragment (ReassemblyState.mk N true [(N, ⟨c, []⟩)]) f :=
      hL2.trans ((finishIngest_kick N c _).trans hR2.symm)
    have hrun : runIngest ReassemblyState.init (f :: rest) =
        runIngest (ReassemblyState.mk N true [(N, ⟨c, []⟩)]) (f :: rest) := by
      rw [runIngest_cons, runIngest_cons, hkick]
    rw [hrun, completion_run N c (f :: rest) []
      (fun g hg => by
        obtain ⟨hg1, -⟩ := hmem g hg
        exact ⟨by rw [hg1]; rfl, by rw [hg1]; rfl⟩)
      (by simpa using hkeys)
      (by simpa using hlen)
      (List.cons_ne_nil _ _)]
    rw [List.append_nil, assemble_of_pairs c (revPairs (f :: rest)) p hpnd hpairs]

/-- Claim C6 witness: the spec scenario — fragments of frame 0 with fragment count
3 arrive in index order [1, 0, 2]; exactly one completion event for frame 0
is emitted, with the payloads in index order [0], [1], [2]. -/
theorem order_independent_completion_witness :
    (runIngest ReassemblyState.init
      [⟨0, 1, 3, [1]⟩, ⟨0, 0, 3, [0]⟩, ⟨0, 2, 3, [2]⟩]).2 = [⟨0, [0, 1, 2]⟩] :=
  (order_independent_completion 0 3 (fun i => [i])
    [⟨0, 1, 3, [1]⟩, ⟨0, 0, 3, [0]⟩, ⟨0, 2, 3, [2]⟩]
    (by decide) (by decide)).trans (by decide)

/-- Claim C3: across any sequence of fragment ingests within one session, the
sequence of frame_id values of the CompletionEvents delivered to the decode
pipeline is strictly increasing — frames are never delivered out of order or
delivered twice. -/
theorem monotonic_delivery (raws : List (List Nat)) :
    List.Pairwise (fun a b => a < b)
      (((steadyLoop ReassemblyState.init raws).events).map CompletionEvent.frame_id) := by
  rw [(steadyLoop_runIngest raws ReassemblyState.init).2.1]
  exact (runIngest_spec (parsedFrags raws) ReassemblyState.init wellStarted_init).2.2.2

/-- Claim C5: for every reachable ReassemblyState and every ingest,
expected_frame_id never decreases, and ingesting a fragment whose frame_id is
below expected_frame_id leaves the whole state unchanged and emits no
CompletionEvent. -/
theorem expected_monotone_stale_rejected (l : List Fragment) (f : Fragment) :
    (runIngest ReassemblyState.init l).1.expected_frame_id ≤
      (ingest_fragment (runIngest ReassemblyState.init l).1 f).1.expected_frame_id ∧
    (f.frame_id < (runIngest ReassemblyState.init l).1.expected_frame_id →
      ingest_fragment (runIngest ReassemblyState.init l).1 f =
        ((runIngest ReassemblyState.init l).1, none)) := by
  have hg : WellStarted (runIngest ReassemblyState.init l).1 :=
    (runIngest_spec l ReassemblyState.init wellStarted_init).2.1
  refine ⟨ingest_expected_ge _ f hg, ?_⟩
  intro hlt
  cases hb : (runIngest ReassemblyState.init l).1.started with
  | true => exact ingest_stale hb hlt
  | false =>
    rw [hg hb] at hlt
    exact absurd hlt (Nat.not_lt_zero _)

/-- Claim C5 witness: after frame 5 completes from the initial state, a stale
fragment of frame 3 is rejected with no state change and no event. -/
theorem expected_monotone_stale_rejected_witness :
    (runIngest ReassemblyState.init [⟨5, 0, 1, [1]⟩]).1.expected_frame_id ≤
      (ingest_fragment (runIngest ReassemblyState.init [⟨5, 0, 1, [1]⟩]).1
        ⟨3, 0, 2, [2]⟩).1.expected_frame_id ∧
    ingest_fragment (runIngest ReassemblyState.init [⟨5, 0, 1, [1]⟩]).1 ⟨3, 0, 2, [2]⟩ =
      ((runIngest ReassemblyState.init [⟨5, 0, 1, [1]⟩]).1, none) :=
  ⟨(expected_monotone_stale_rejected [⟨5, 0, 1, [1]⟩] ⟨3, 0, 2, [2]⟩).1,
   (expected_monotone_stale_rejected [⟨5, 0, 1, [1]⟩] ⟨3, 0, 2, [2]⟩).2 (by decide)⟩

/-- Claim C4: if frame N is incomplete (still tracked as a partial) and frame N+1
completes first, the completing ingest abandons frame N — its partial is
dropped, expected_frame_id becomes N+2, and no CompletionEvent for frame N is
ever emitted afterwards. -/
theorem abandonment (s : ReassemblyState) (f : Fragment) (N : Nat) (e : CompletionEvent)
    (pf : PartialFrame)
    (htrack : alookup N s.partials = some pf)
    (hincomp : pf.frags.length ≠ pf.frag_cnt)
    (hev : (ingest_fragment s f).2 = some e)
    (hN : e.frame_id = N + 1) :
    (ingest_fragment s f).1.expected_frame_id = N + 2 ∧
    alookup N (ingest_fragment s f).1.partials = none ∧
    ∀ (l : List Fragment) (e2 : CompletionEvent),
      e2 ∈ (runIngest (ingest_fragment s f).1 l).2 → N < e2.frame_id := by
  obtain ⟨hfid, hge, hexp, hpart⟩ := ingest_emit s f e hev
  refine ⟨by omega, ?_, ?_⟩
  · rw [hpart, hN]
    exact alookup_filter_ge N (N + 1 + 1) _ (by omega)
  · intro l e2 he2
    have h := ((runIngest_spec l _ (ingest_wellStarted s f)).2.2.1 e2 he2).1
    omega

/-- Claim C4 witness: frame 0 has one of two fragments; the single-fragment frame 1
then completes, abandoning frame 0 and advancing expected_frame_id to 2. -/
theorem abandonment_witness :
    (ingest_fragment (runIngest ReassemblyState.init [⟨0, 0, 2, [7]⟩]).1
      ⟨1, 0, 1, [9]⟩).1.expected_frame_id = 0 + 2 ∧
    alookup 0 (ingest_fragment (runIngest ReassemblyState.init [⟨0, 0, 2, [7]⟩]).1
      ⟨1, 0, 1, [9]⟩).1.partials = none := by
  have h := abandonment (runIngest ReassemblyState.init [⟨0, 0, 2, [7]⟩]).1
    ⟨1, 0, 1, [9]⟩ 0 ⟨1, [9]⟩ ⟨2, [(0, [7])]⟩ (by decide) (by decide) (by decide) (by decide)
  exact ⟨h.1, h.2.1⟩

/-- Claim C1 is false on the code: a malformed 3-byte datagram in steady state is
not dropped with the loop continuing to the next datagram — main throws
runtime_error("failed to parse a datagram") (line 124), terminating the
session, so the following well-formed fragment datagram is never
acknowledged, although a run beginning at that same datagram acknowledges
it. -/
theorem parse_failure_counterexample :
    (steadyLoop ReassemblyState.init [[1, 5, 2], [1, 0, 0, 1]]).terminated = true ∧
    (steadyLoop ReassemblyState.init [[1, 5, 2], [1, 0, 0, 1]]).acks = [] ∧
    (steadyLoop ReassemblyState.init [[1, 0, 0, 1]]).acks = [⟨0, 0⟩] := by
  decide

/-- Claim C1 (amended): when a received datagram fails codec validation in steady
state, zero Acknowledgments are sent and the ReassemblyState is unchanged,
but the receive loop does not continue to the next datagram: the receiver
throws a runtime error and the session terminates. -/
theorem parse_failure_terminates (s : ReassemblyState) (raw : List Nat)
    (rest : List (List Nat)) (h : parseDatagram raw = none) :
    steadyLoop s (raw :: rest) = ⟨[], [], s, true⟩ :=
  steadyLoop_cons_fail h

/-- Claim C1 amended witness: the malformed 3-byte datagram [1, 5, 2]. -/
theorem parse_failure_terminates_witness :
    steadyLoop ReassemblyState.init [[1, 5, 2], [1, 0, 0, 1]] =
      ⟨[], [], ReassemblyState.init, true⟩ :=
  parse_failure_terminates ReassemblyState.init [1, 5, 2] [[1, 0, 0, 1]] (by decide)

theorem loopTrace_ackBeforeIngest (raws : List (List Nat)) : ∀ s : ReassemblyState,
    AckBeforeIngest (loopTrace s raws) := by
  induction raws with
  | nil => intro s; exact AckBeforeIngest.nil
  | cons raw rest ih =>
    intro s
    cases hp : parseDatagram raw with
    | none =>
      have h : loopTrace s (raw :: rest) = [] := by simp [loopTrace, hp]
      rw [h]
      exact AckBeforeIngest.nil
    | some f =>
      have h : loopTrace s (raw :: rest) =
          Action.sentAck ⟨f.frame_id, f.frag_id⟩ :: Action.ingested f ::
            ((ingest_fragment s f).2.toList.map Action.delivered ++
              loopTrace (ingest_fragment s f).1 rest) := by
        simp [loopTrace, hp]
      rw [h]
      exact AckBeforeIngest.step f (ingest_fragment s f).2.toList _ (ih _)

/-- Claim C2: in steady state, the acknowledgments sent are exactly one per
datagram that the codec validates as a Fragment, each echoing that fragment's
frame_id and frag_id, and none for a datagram that fails validation; the
count is independent of the reassembly state and outcome (the right-hand side
does not mention the state).  Moreover every fragment handed to the
reassembly engine is acknowledged immediately beforehand in the action
trace. -/
theorem feedback_totality (s : ReassemblyState) (raws : List (List Nat)) :
    (steadyLoop s raws).acks =
      (parsedFrags raws).map (fun f => AckMsg.mk f.frame_id f.frag_id) ∧
    AckBeforeIngest (loopTrace s raws) :=
  ⟨(steadyLoop_runIngest raws s).1, loopTrace_ackBeforeIngest raws s⟩

theorem recv_config_skip (a : Nat) (raw : List Nat) (c : ConfigMsg)
    (rest : List (Nat × List Nat)) (hc : decodeMsg raw = some (Msg.config c)) :
    ∀ pre : List (Nat × List Nat), (∀ q ∈ pre, isConfig (decodeMsg q.2) = false) →
      recv_config_msg (pre ++ (a, raw) :: rest) = some (a, c, rest) := by
  intro pre
  induction pre with
  | nil => intro _; simp [recv_config_msg, hc]
  | cons q qs ih =>
    intro hpre
    obtain ⟨qa, qraw⟩ := q
    have hq := hpre (qa, qraw) (List.mem_cons_self _ _)
    have hrest : ∀ r ∈ qs, isConfig (decodeMsg r.2) = false :=
      fun r hr => hpre r (List.mem_cons_of_mem _ hr)
    cases hm : decodeMsg qraw with
    | none =>
      rw [List.cons_append]
      simp only [recv_config_msg, hm]
      exact ih hrest
    | some m =>
      cases m with
      | config c2 => rw [hm] at hq; simp [isConfig] at hq
      | frag f2 =>
        rw [List.cons_append]
        simp only [recv_config_msg, hm]
        exact ih hrest
      | ack a2 =>
        rw [List.cons_append]
        simp only [recv_config_msg, hm]
        exact ih hrest

/-- Claim C8: at session start the receiver blocks until the first datagram that
parses as a valid SessionConfig; every earlier datagram (unparseable or of a
different message kind) is skipped, the handshake returns the address of the
peer that sent that first valid SessionConfig, and the session is connected
to that peer. -/
theorem handshake_first_config (pre : List (Nat × List Nat)) (a : Nat) (raw : List Nat)
    (c : ConfigMsg) (rest : List (Nat × List Nat))
    (hpre : ∀ q ∈ pre, isConfig (decodeMsg q.2) = false)
    (hc : decodeMsg raw = some (Msg.config c)) :
    recv_config_msg (pre ++ (a, raw) :: rest) = some (a, c, rest) ∧
    (runSession (pre ++ (a, raw) :: rest)).peer = some a := by
  have h1 := recv_config_skip a raw c rest hc pre hpre
  exact ⟨h1, by simp [runSession, h1]⟩

/-- Claim C8 witness: a valid fragment datagram and an unparseable datagram precede
the first valid SessionConfig, sent by peer 3; both are skipped and the
session connects to peer 3. -/
theorem handshake_first_config_witness :
    recv_config_msg
        [(9, [1, 0, 0, 1]), (8, [9, 9]), (3, [0, 640, 480, 30, 100]), (3, [1, 0, 0, 1])] =
      some (3, ⟨640, 480, 30, 100⟩, [(3, [1, 0, 0, 1])]) ∧
    (runSession
        [(9, [1, 0, 0, 1]), (8, [9, 9]), (3, [0, 640, 480, 30, 100]), (3, [1, 0, 0, 1])]).peer =
      some 3 :=
  handshake_first_config [(9, [1, 0, 0, 1]), (8, [9, 9])] 3 [0, 640, 480, 30, 100]
    ⟨640, 480, 30, 100⟩ [(3, [1, 0, 0, 1])] (by decide) (by decide)

/-- Claim C9: during the handshake phase, every datagram that is not a valid
SessionConfig — including a well-formed, codec-valid Fragment — is silently
discarded: the whole observable session outcome (connected peer,
acknowledgments, deliveries, state) is as if the datagram had never arrived,
so no Acknowledgment is sent for it and acknowledgments begin only after the
handshake completes. -/
theorem handshake_discards_nonconfig (x : Nat × List Nat) (inputs : List (Nat × List Nat))
    (h : isConfig (decodeMsg x.2) = false) :
    runSession (x :: inputs) = runSession inputs := by
  obtain ⟨a, raw⟩ := x
  cases hm : decodeMsg raw with
  | none => simp [runSession, recv_config_msg, hm]
  | some m =>
    cases m with
    | config c => rw [hm] at h; simp [isConfig] at h
    | frag f => simp [runSession, recv_config_msg, hm]
    | ack a2 => simp [runSession, recv_config_msg, hm]

/-- Claim C9 witness: a codec-valid Fragment arriving before the SessionConfig is
discarded — the session outcome is identical with and without it, so it is
never acknowledged. -/
theorem handshake_discards_nonconfig_witness :
    runSession [(7, [1, 0, 0, 1]), (3, [0, 640, 480, 30, 100]), (3, [1, 0, 0, 1])] =
      runSession [(3, [0, 640, 480, 30, 100]), (3, [1, 0, 0, 1])] :=
  handshake_discards_nonconfig (7, [1, 0, 0, 1])
    [(3, [0, 640, 480, 30, 100]), (3, [1, 0, 0, 1])] (by decide)

/-- Claim C10: the `--lazy` option accepts any integer that strict_stoi parses —
values outside the documented set {0, 1, 2} are not rejected anywhere, and
the stored value is passed unchecked to the Decoder constructor. -/
theorem lazy_level_unchecked (a : String) (n : Int) (c : ConfigMsg) (o : CmdOpts)
    (h : strict_stoi a = some n) :
    parseOpts o [OptTok.lazy a] = some { o with lazy_level := n } ∧
    (decoderArgsOf c { o with lazy_level := n }).lazy_level = n := by
  refine ⟨?_, rfl⟩
  simp [parseOpts, h]

/-- Claim C10 witness: `--lazy 5` — a value outside {0, 1, 2} — is accepted and
reaches the Decoder constructor as 5. -/
theorem lazy_level_unchecked_witness :
    parseOpts defaultOpts [OptTok.lazy "5"] = some { defaultOpts with lazy_level := 5 } ∧
    (decoderArgsOf ⟨640, 480, 30, 100⟩ { defaultOpts with lazy_level := 5 }).lazy_level = 5 :=
  lazy_level_unchecked "5" 5 ⟨640, 480, 30, 100⟩ defaultOpts (by decide)

end Ringmaster
